import Mathlib

/-!
Verification of the information-retrieval system (boolean models, Porter
stemmer, stop-word filtering, signature model, vector-space model) against
its natural-language specification.  Python source files are shallowly
embedded: terms and strings are `List Char`, Python sets of document ids are
`Finset ℕ`, floats are exact reals/rationals, and the unbounded `while`
loops of the boolean query evaluator are modelled with explicit fuel.
-/

/-! ## Basic character and string utilities -/

/-- A term / Python string, embedded as a list of characters. -/
abbrev Term := List Char

/-- Shorthand turning a Lean string literal into the embedded representation. -/
def L (s : String) : Term := s.toList

/-- ASCII lower-casing of one character (Python `str.lower` on ASCII input). -/
def lowerChar (c : Char) : Char :=
  if 'A' ≤ c ∧ c ≤ 'Z' then Char.ofNat (c.toNat + 32) else c

/-- Python `s.lower()` for ASCII strings. -/
def lowerTerm (t : Term) : Term := t.map lowerChar

/-- Membership of a character in the class `aeiou` (the regex `[aeiou]`). -/
def isAeiou (c : Char) : Bool :=
  c = 'a' ∨ c = 'e' ∨ c = 'i' ∨ c = 'o' ∨ c = 'u'

/-- Membership in the class `aeiouy` (the regex `[aeiouy]`). -/
def isAeiouy (c : Char) : Bool := isAeiou c ∨ c = 'y'

/-- Python `term[:-k]`: drop the last `k` characters (empty if `k ≥ length`). -/
def dropR (k : ℕ) (t : Term) : Term := t.take (t.length - k)

/-- Python `term.endswith(suf)`. -/
def ends (suf : Term) (t : Term) : Bool := suf.isSuffixOf t

/-! ## porter.py -/

/-- Does the regex `^[^aeiou]*([aeiouy][^aeiou])` match the term?  The
regex backtracks through the greedy star, so a match exists iff some prefix
of non-`aeiou` characters is followed by an `aeiouy` character and then a
non-`aeiou` character. -/
def measureFormMatch : Term → Bool
  | a :: b :: rest =>
      (isAeiouy a ∧ ¬ isAeiou b) ∨ (¬ isAeiou a ∧ measureFormMatch (b :: rest))
  | _ => false

/-- `get_measure` of porter.py: `len(re.findall("^[^aeiou]*([aeiouy][^aeiou])", term))`.
The pattern is anchored at `^`, so `findall` yields at most one match. -/
def get_measure (t : Term) : ℕ := if measureFormMatch t then 1 else 0

/-- The measure as the spec describes it (reference definition for the
refinement claim about `get_measure`): the number of
vowel-run→consonant-run transitions of the decomposition `[C](VC){m}[V]`,
counted as the positions where an `aeiouy` character is immediately
followed by a non-`aeiouy` character. -/
def measureSpec (t : Term) : ℕ :=
  (t.zip t.tail).countP (fun p => isAeiouy p.1 ∧ ¬ isAeiouy p.2)

/-- `condition_v`: the stem contains a character of `[aeiouy]`. -/
def condition_v (t : Term) : Bool := t.any isAeiouy

/-- `condition_d`: the stem ends with a doubled character (regex `(.)\1$`). -/
def condition_d (t : Term) : Bool :=
  match t.reverse with
  | a :: b :: _ => a = b
  | _ => false

/-- `cond_o`: the regex `[^aeiou][aeiouy][^aeiou][^wxy]$` matches, i.e. the
last four characters are non-vowel, `aeiouy`, non-vowel, and not `w`/`x`/`y`. -/
def cond_o (t : Term) : Bool :=
  match t.reverse with
  | d :: c :: b :: a :: _ =>
      ¬ isAeiou a ∧ isAeiouy b ∧ ¬ isAeiou c ∧ ¬ (d = 'w' ∨ d = 'x' ∨ d = 'y')
  | _ => false

/-- Is the last character of the stem one of `lsz` (Python `term[-1] in "lsz"`)? -/
def lastInLsz (t : Term) : Bool :=
  match t.reverse with
  | c :: _ => c = 'l' ∨ c = 's' ∨ c = 'z'
  | [] => false

/-- Step 1a of `stem_term`. -/
def step1a (t : Term) : Term :=
  if ends (L "sses") t then dropR 2 t
  else if ends (L "ies") t then dropR 2 t
  else if ends (L "ss") t then t
  else if ends (L "s") t then dropR 1 t
  else t

/-- The post-processing shared by the `ed`/`ing` branches of step 1b. -/
def step1bAdjust (t : Term) : Term :=
  if ends (L "at") t ∨ ends (L "bl") t ∨ ends (L "iz") t then t ++ [ 'e' ]
  else if condition_d t ∧ ¬ lastInLsz t then dropR 1 t
  else if cond_o t then t ++ [ 'e' ]
  else t

/-- Step 1b of `stem_term`. -/
def step1b (t : Term) : Term :=
  if ends (L "eed") t then
    (if get_measure (dropR 3 t) > 0 then dropR 1 t else t)
  else if ends (L "ed") t then
    (if condition_v (dropR 2 t) then step1bAdjust (dropR 2 t) else t)
  else if ends (L "ing") t then
    (if condition_v (dropR 3 t) then step1bAdjust (dropR 3 t) else t)
  else t

/-- Step 1c of `stem_term`. -/
def step1c (t : Term) : Term :=
  if ends (L "y") t ∧ condition_v (dropR 1 t) then dropR 1 t ++ [ 'i' ]
  else t

/-- One pass over a suffix/replacement table: the first suffix that matches
with `get_measure(stem) > 0` is replaced, later rules are not tried; a rule
whose measure test fails does not stop the scan (Python only `break`s after
a successful replacement). -/
def applyRules (rules : List (Term × Term)) (t : Term) : Term :=
  match rules with
  | [] => t
  | (suf, rep) :: rest =>
      if ends suf t ∧ get_measure (dropR suf.length t) > 0 then
        dropR suf.length t ++ rep
      else applyRules rest t

/-- The suffix table of step 2. -/
def step_2_suffixes : List (Term × Term) :=
  [(L "ational", L "ate"), (L "tional", L "tion"), (L "enci", L "ence"),
   (L "anci", L "ance"), (L "izer", L "ize"), (L "abli", L "able"),
   (L "alli", L "al"), (L "entli", L "ent"), (L "eli", L "e"),
   (L "ousli", L "ous"), (L "ization", L "ize"), (L "ation", L "ate"),
   (L "ator", L "ate"), (L "alism", L "al"), (L "iveness", L "ive"),
   (L "fulness", L "ful"), (L "ousness", L "ous"), (L "aliti", L "al"),
   (L "iviti", L "ive"), (L "biliti", L "ble")]

/-- The suffix table of step 3. -/
def step_3_suffixes : List (Term × Term) :=
  [(L "icate", L "ic"), (L "ative", L ""), (L "alize", L "al"),
   (L "iciti", L "ic"), (L "ical", L "ic"), (L "ful", L ""), (L "ness", L "")]

/-- The suffix list of step 4 (bare deletion, requiring `get_measure > 1`). -/
def step_4_suffixes : List Term :=
  [L "al", L "ance", L "ence", L "er", L "ic", L "able", L "ible", L "ant",
   L "ement", L "ment", L "ent", L "sion", L "tion", L "ou", L "ism",
   L "ate", L "iti", L "ous", L "ive", L "ize"]

/-- Step 4: delete the first suffix that matches with `get_measure(stem) > 1`. -/
def step4 (t : Term) : Term :=
  match step_4_suffixes.find? (fun suf =>
      ends suf t ∧ get_measure (dropR suf.length t) > 1) with
  | some suf => dropR suf.length t
  | none => t

/-- Step 5a of `stem_term`. -/
def step5a (t : Term) : Term :=
  if ends (L "e") t then
    (if get_measure (dropR 1 t) > 1 ∨
        (get_measure (dropR 1 t) = 1 ∧ ¬ cond_o (dropR 1 t)) then dropR 1 t
     else t)
  else t

/-- Step 5b of `stem_term`. -/
def step5b (t : Term) : Term :=
  if get_measure t > 1 ∧ condition_d t ∧ ends (L "l") t then dropR 1 t else t

/-- `stem_term` of porter.py: the five steps applied in sequence. -/
def stem_term (t : Term) : Term :=
  step5b (step5a (step4 (applyRules step_3_suffixes
    (applyRules step_2_suffixes (step1c (step1b (step1a t)))))))

/-! ## cleanup.py -/

/-- The apostrophe character. -/
def apos : Char := Char.ofNat 39

/-- Python's `string.punctuation` as a character list. -/
def punctuationChars : List Char :=
  ['!', '\"', '#', '$', '%', '&', apos, '(', ')', '*', '+', ',', '-', '.',
   '/', ':', ';', '<', '=', '>', '?', '@', '[', '\\', ']', '^', '_',
   Char.ofNat 96, Char.ofNat 123, '|', Char.ofNat 125, '~']

/-- Python `text.replace("'s", "")`: delete every (non-overlapping, scanned
left to right) occurrence of an apostrophe followed by `s`. -/
def removeAposS : Term → Term
  | [] => []
  | [c] => [c]
  | a :: b :: rest =>
      if a = apos ∧ b = 's' then removeAposS rest
      else a :: removeAposS (b :: rest)

/-- `remove_symbols` of cleanup.py: delete `'s` occurrences, then strip all
`string.punctuation` characters. -/
def remove_symbols (t : Term) : Term :=
  (removeAposS t).filter (fun c => ¬ c ∈ punctuationChars)

/-- `is_stop_word`: the lower-cased term occurs in the stop-word list. -/
def is_stop_word (t : Term) (stopWords : List Term) : Bool :=
  lowerTerm t ∈ stopWords

/-- `remove_stop_words_from_term_list`: each term is first passed through
`remove_symbols`, and the cleaned form is kept iff it is not a stop word. -/
def remove_stop_words_from_term_list (terms : List Term) (stopWords : List Term) :
    List Term :=
  match terms with
  | [] => []
  | t :: rest =>
      let t2 := remove_symbols t
      if ¬ is_stop_word t2 stopWords then
        t2 :: remove_stop_words_from_term_list rest stopWords
      else remove_stop_words_from_term_list rest stopWords

/-! ## The document record (document.py is not part of src/)

Modelled from the spec: the `Document` record of document.py, which is not
among the provided source files; the spec states that `terms` is always
present while `filtered_terms` and `stemmed_terms` are the optionally
present filtered/stemmed variants.  Only the three term lists matter to the
claims. -/
structure Document where
  terms : List Term
  filtered_terms : List Term
  stemmed_terms : List Term
deriving DecidableEq

/-- The term list selected by the `stopword_filtering`/`stemming` flags, as
in every `document_to_representation` of models.py: filtering picks
`filtered_terms` over `terms`, and stemming then overrides the choice with
`stemmed_terms`. -/
def selectedTerms (d : Document) (stopword_filtering stemming : Bool) :
    List Term :=
  let terms := if stopword_filtering then d.filtered_terms else d.terms
  if stemming then d.stemmed_terms else terms

/-! ## InvertedListBooleanModel (models.py) -/

/-- The inverted index: an insertion-ordered association list from
(lower-cased) terms to the set of document ids, mirroring the Python dict. -/
abbrev InvIndex := List (Term × Finset ℕ)

/-- Insert one posting: `inverted_index.setdefault(term, set()).add(doc_id)`. -/
def idxInsert (idx : InvIndex) (t : Term) (i : ℕ) : InvIndex :=
  match idx with
  | [] => [(t, {i})]
  | (k, s) :: rest =>
      if k = t then (k, insert i s) :: rest else (k, s) :: idxInsert rest t i

/-- Dict lookup `inverted_index[t]` (`none` when the key is absent). -/
def idxLookup (idx : InvIndex) (t : Term) : Option (Finset ℕ) :=
  match idx with
  | [] => none
  | (k, s) :: rest => if k = t then some s else idxLookup rest t

/-- The inner loop of `build_inverted_list`: insert document `i` under every
lower-cased term of its raw term list. -/
def addDocTerms (idx : InvIndex) (i : ℕ) (terms : List Term) : InvIndex :=
  terms.foldl (fun acc t => idxInsert acc (lowerTerm t) i) idx

/-- `build_inverted_list`, iterating over `enumerate(documents)`; it reads
`document.terms` only (the filtering/stemming flags play no role here) and
also accumulates the universal id set `all_docs`. -/
def buildAux (docs : List Document) (i : ℕ) (idx : InvIndex)
    (allDocs : Finset ℕ) : InvIndex × Finset ℕ :=
  match docs with
  | [] => (idx, allDocs)
  | d :: rest => buildAux rest (i + 1) (addDocTerms idx i d.terms) (insert i allDocs)

/-- `InvertedListBooleanModel.build_inverted_list` on a fresh model. -/
def build_inverted_list (docs : List Document) : InvIndex × Finset ℕ :=
  buildAux docs 0 [] ∅

/-- Membership test `i ∈ inverted_index[t]` (false when `t` is not a key). -/
def memIdx (idx : InvIndex) (t : Term) (i : ℕ) : Bool :=
  match idxLookup idx t with
  | some s => i ∈ s
  | none => false

/-! ### Query tokenisation and the stack evaluator of `search` -/

/-- Is the character one of the delimiters of the splitting regex
`(\(|\)|\&|\||\-)`? -/
def isOpChar (c : Char) : Bool :=
  c = '(' ∨ c = ')' ∨ c = '&' ∨ c = '|' ∨ c = '-'

/-- Python whitespace, as stripped by `str.strip()`. -/
def isPyWhitespace (c : Char) : Bool :=
  c = ' ' ∨ c = Char.ofNat 9 ∨ c = Char.ofNat 10 ∨ c = Char.ofNat 13 ∨
  c = Char.ofNat 11 ∨ c = Char.ofNat 12

/-- Python `token.strip()`. -/
def stripTerm (t : Term) : Term :=
  ((t.dropWhile isPyWhitespace).reverse.dropWhile isPyWhitespace).reverse

/-- `re.split` with a single capturing group alternates text pieces and the
captured delimiters; `cur` accumulates the current text piece (reversed). -/
def splitTokensAux (cur : Term) : Term → List Term
  | [] => [cur.reverse]
  | c :: rest =>
      if isOpChar c then cur.reverse :: [c] :: splitTokensAux [] rest
      else splitTokensAux (c :: cur) rest

/-- `InvertedListBooleanModel.query_to_representation`: lower-case, split on
the operators and parentheses keeping them as tokens, strip each token and
drop the empty ones. -/
def query_to_representation (q : Term) : List Term :=
  ((splitTokensAux [] (lowerTerm q)).map stripTerm).filter (fun t => t ≠ [])

/-- The evaluator state of `search`: the operand stack of document-id sets
and the operator stack (stack tops at the heads). -/
structure BState where
  res : List (Finset ℕ)
  ops : List Term
deriving DecidableEq

/-- Outcome of a loop that may diverge or raise. -/
inductive EvalRes (α : Type) where
  | ok : α → EvalRes α
  | exc : EvalRes α
  | fuelOut : EvalRes α
deriving DecidableEq

/-- The nested helper `apply_operator` of `InvertedListBooleanModel.search`.
With fewer than two operands and a binary operator on top it returns with
*no* state change (the Python `return []` pops nothing); `none` models an
`IndexError` from popping an empty list. -/
def apply_operator (allDocs : Finset ℕ) (s : BState) : Option BState :=
  match s.ops with
  | [] => none
  | op :: restOps =>
      if s.res.length < 2 ∧ op ≠ L "-" then some s
      else if op ≠ L "-" then
        match s.res with
        | right :: left :: restRes =>
            let newRes :=
              if op = L "&" then (left ∩ right) :: restRes
              else if op = L "|" then (left ∪ right) :: restRes
              else restRes
            some ⟨newRes, restOps⟩
        | _ => none
      else
        match s.res with
        | left :: restRes => some ⟨(allDocs \ left) :: restRes, restOps⟩
        | [] => none

/-- The inner loop
`while operator_stack and operator_stack[-1] in ('&','|'): apply_operator()`,
with fuel. -/
def applyWhileBin (allDocs : Finset ℕ) : ℕ → BState → EvalRes BState
  | fuel, s =>
      match s.ops with
      | [] => .ok s
      | op :: _ =>
          if op = L "&" ∨ op = L "|" then
            match fuel with
            | 0 => .fuelOut
            | n + 1 =>
                match apply_operator allDocs s with
                | none => .exc
                | some s2 => applyWhileBin allDocs n s2
          else .ok s

/-- The set pushed for a term token: `inverted_index[token]` when the token
is a key, else `set()`. -/
def lookupSet (idx : InvIndex) (t : Term) : Finset ℕ :=
  match idxLookup idx t with
  | some s => s
  | none => ∅

/-- One iteration of the token loop of `search`: operators manage the
stacks; parentheses are *not* special-cased here (unlike
`LinearBooleanModel.search`), so they fall through to the term branch and
are looked up in the inverted index, pushing `set()` when absent. -/
def processToken (idx : InvIndex) (allDocs : Finset ℕ) (fuel : ℕ)
    (s : BState) (tok : Term) : EvalRes BState :=
  if tok = L "&" ∨ tok = L "|" then
    match applyWhileBin allDocs fuel s with
    | .ok s2 => .ok ⟨s2.res, tok :: s2.ops⟩
    | .exc => .exc
    | .fuelOut => .fuelOut
  else if tok = L "-" then .ok ⟨s.res, tok :: s.ops⟩
  else .ok ⟨lookupSet idx tok :: s.res, s.ops⟩

/-- The token loop of `search`. -/
def foldTokens (idx : InvIndex) (allDocs : Finset ℕ) (fuel : ℕ) :
    BState → List Term → EvalRes BState
  | s, [] => .ok s
  | s, tok :: rest =>
      match processToken idx allDocs fuel s tok with
      | .ok s2 => foldTokens idx allDocs fuel s2 rest
      | .exc => .exc
      | .fuelOut => .fuelOut

/-- The trailing loop `while operator_stack: apply_operator()`, with fuel. -/
def drainAll (allDocs : Finset ℕ) : ℕ → BState → EvalRes (List (Finset ℕ))
  | fuel, s =>
      match s.ops with
      | [] => .ok s.res
      | _ :: _ =>
          match fuel with
          | 0 => .fuelOut
          | n + 1 =>
              match apply_operator allDocs s with
              | none => .exc
              | some s2 => drainAll allDocs n s2

/-- The body of `search` after tokenisation: run the token loop, drain the
remaining operators, and return the top of the result stack (`none` encodes
the `return []` on an empty stack). -/
def searchTokens (idx : InvIndex) (allDocs : Finset ℕ) (fuel : ℕ)
    (tokens : List Term) : EvalRes (Option (Finset ℕ)) :=
  match foldTokens idx allDocs fuel ⟨[], []⟩ tokens with
  | .ok s =>
      match drainAll allDocs fuel s with
      | .ok [] => .ok none
      | .ok (top :: _) => .ok (some top)
      | .exc => .exc
      | .fuelOut => .fuelOut
  | .exc => .exc
  | .fuelOut => .fuelOut

/-- `InvertedListBooleanModel.search`: tokenise the (lower-cased) query and
evaluate. -/
def inverted_search (idx : InvIndex) (allDocs : Finset ℕ) (fuel : ℕ)
    (q : Term) : EvalRes (Option (Finset ℕ)) :=
  searchTokens idx allDocs fuel (query_to_representation (lowerTerm q))

/-! ## SignatureBasedBooleanModel (models.py)

`_hash_function` computes `int(hashlib.sha256(term + str(seed)).hexdigest(),
16) % F`; SHA-256 is embedded below as a pure function on byte lists, with
32-bit words as `ℕ` truncated by `% 2^32`. -/

/-- Truncation to a 32-bit word. -/
def w32 (x : ℕ) : ℕ := x % 4294967296

/-- 32-bit right rotation. -/
def rotr32 (x n : ℕ) : ℕ := w32 ((x >>> n) ||| (x <<< (32 - n)))

/-- The small sigma-0 function of the SHA-256 message schedule. -/
def schedSig0 (x : ℕ) : ℕ := rotr32 x 7 ^^^ rotr32 x 18 ^^^ (x >>> 3)

/-- The small sigma-1 function of the SHA-256 message schedule. -/
def schedSig1 (x : ℕ) : ℕ := rotr32 x 17 ^^^ rotr32 x 19 ^^^ (x >>> 10)

/-- The big sigma-0 function of the SHA-256 compression. -/
def compSig0 (x : ℕ) : ℕ := rotr32 x 2 ^^^ rotr32 x 13 ^^^ rotr32 x 22

/-- The big sigma-1 function of the SHA-256 compression. -/
def compSig1 (x : ℕ) : ℕ := rotr32 x 6 ^^^ rotr32 x 11 ^^^ rotr32 x 25

/-- The SHA-256 round constants. -/
def sha256K : List ℕ :=
  [1116352408, 1899447441, 3049323471, 3921009573, 961987163,
   1508970993, 2453635748, 2870763221, 3624381080, 310598401,
   607225278, 1426881987, 1925078388, 2162078206, 2614888103,
   3248222580, 3835390401, 4022224774, 264347078, 604807628,
   770255983, 1249150122, 1555081692, 1996064986, 2554220882,
   2821834349, 2952996808, 3210313671, 3336571891, 3584528711,
   113926993, 338241895, 666307205, 773529912, 1294757372,
   1396182291, 1695183700, 1986661051, 2177026350, 2456956037,
   2730485921, 2820302411, 3259730800, 3345764771, 3516065817,
   3600352804, 4094571909, 275423344, 430227734, 506948616,
   659060556, 883997877, 958139571, 1322822218, 1537002063,
   1747873779, 1955562222, 2024104815, 2227730452, 2361852424,
   2428436474, 2756734187, 3204031479, 3329325298]

/-- The SHA-256 initial hash value. -/
def sha256H0 : List ℕ :=
  [1779033703, 3144134277, 1013904242, 2773480762, 1359893119,
   2600822924, 528734635, 1541459225]

/-- SHA-256 padding of a byte list: append `0x80`, zero bytes up to 56 mod
64, and the bit length as eight big-endian bytes. -/
def sha256pad (msg : List ℕ) : List ℕ :=
  let len := msg.length
  let zeros := (119 - len % 64) % 64
  msg ++ [128] ++ List.replicate zeros 0 ++
    ([56, 48, 40, 32, 24, 16, 8, 0].map (fun s => ((len * 8) >>> s) % 256))

/-- Group bytes into big-endian 32-bit words. -/
def bytesToWords : List ℕ → List ℕ
  | b0 :: b1 :: b2 :: b3 :: rest =>
      (((b0 * 256 + b1) * 256 + b2) * 256 + b3) :: bytesToWords rest
  | _ => []

/-- The Python slicing comprehension `[l[i:i+k] for i in range(0, len(l), k)]`:
split a list into consecutive blocks of `k` elements (the last one possibly
shorter).  Used both for the 64-byte SHA-256 blocks and for the five-term
windows of the signature model. -/
def chunksOf {α : Type} (k : ℕ) (l : List α) : List (List α) :=
  (List.range ((l.length + k - 1) / k)).map (fun i => (l.drop (i * k)).take k)

/-- One extension step of the SHA-256 message schedule. -/
def scheduleStep (ws : List ℕ) : List ℕ :=
  let n := ws.length
  let g := fun i => ws.getD i 0
  ws ++ [w32 (schedSig1 (g (n - 2)) + g (n - 7) + schedSig0 (g (n - 15)) + g (n - 16))]

/-- Iterate the schedule extension. -/
def scheduleIter : ℕ → List ℕ → List ℕ
  | 0, ws => ws
  | k + 1, ws => scheduleIter k (scheduleStep ws)

/-- One SHA-256 compression round on the eight working words. -/
def sha256Round (st : List ℕ) (kw : ℕ × ℕ) : List ℕ :=
  let g := fun i => st.getD i 0
  let a := g 0
  let e := g 4
  let ch := (e &&& g 5) ^^^ ((4294967295 ^^^ e) &&& g 6)
  let maj := (a &&& g 1) ^^^ (a &&& g 2) ^^^ (g 1 &&& g 2)
  let t1 := w32 (g 7 + compSig1 e + ch + kw.1 + kw.2)
  let t2 := w32 (compSig0 a + maj)
  [w32 (t1 + t2), g 0, g 1, g 2, w32 (g 3 + t1), g 4, g 5, g 6]

/-- Compress one 64-byte block into the running hash. -/
def sha256Compress (hs : List ℕ) (chunk : List ℕ) : List ℕ :=
  let ws := scheduleIter 48 (bytesToWords chunk)
  let fin := (sha256K.zip ws).foldl sha256Round hs
  List.zipWith (fun x y => w32 (x + y)) hs fin

/-- SHA-256 of a byte list, as the eight final hash words. -/
def sha256Words (msg : List ℕ) : List ℕ :=
  (chunksOf 64 (sha256pad msg)).foldl sha256Compress sha256H0

/-- `int(hexdigest, 16)`: the digest as one big-endian natural number. -/
def sha256Nat (msg : List ℕ) : ℕ :=
  (sha256Words msg).foldl (fun acc h => acc * 4294967296 + h) 0

/-- Python `str(n)` for a natural number. -/
def strOfNat (n : ℕ) : Term := Nat.toDigits 10 n

/-- `term.encode('utf-8')` for the ASCII terms used here. -/
def utf8Bytes (t : Term) : List ℕ := t.map Char.toNat

/-- `SignatureBasedBooleanModel._hash_function`. -/
def hash_function (F : ℕ) (term : Term) (seed : ℕ) : ℕ :=
  sha256Nat (utf8Bytes term ++ utf8Bytes (strOfNat seed)) % F

/-- The default signature width `F` of `SignatureBasedBooleanModel`. -/
def sigF : ℕ := 64

/-- The default hash count `D` of `SignatureBasedBooleanModel`. -/
def sigD : ℕ := 4

/-- The inner loop of `_create_signature`: set the `D` hash positions of
one (lower-cased) term to 1. -/
def addTermBits (sig : List ℕ) (t : Term) : List ℕ :=
  (List.range sigD).foldl
    (fun s i => s.set (hash_function sigF (lowerTerm t) i) 1) sig

/-- `_create_signature`: the bit list of length `F` accumulated over all
terms of a window. -/
def _create_signature (terms : List Term) : List ℕ :=
  terms.foldl addTermBits (List.replicate sigF 0)

/-- `matching_bits` of `SignatureBasedBooleanModel.match`: positions where
both signatures have a set bit. -/
def matchingBits (ds qs : List ℕ) : ℕ :=
  ((List.zipWith (fun d q => d &&& q) ds qs).filter (fun b => b ≠ 0)).length

/-- `query_active_bits`: the number of set bits of the query signature. -/
def queryActiveBits (qs : List ℕ) : ℕ := qs.sum

/-- One document-window/query-window test of `match`: the ratio of matching
bits to active query bits reaches the 0.75 threshold (the division is exact
rational arithmetic; for the integer ranges involved the Python float
comparison agrees). -/
def sigPairMatch (ds qs : List ℕ) : Bool :=
  queryActiveBits qs > 0 ∧
    ((matchingBits ds qs : ℚ) / (queryActiveBits qs : ℚ) ≥ 0.75)

/-- `SignatureBasedBooleanModel.match`: some document window matches some
query window. -/
def sig_match (docSigs querySigs : List (List ℕ)) : Bool :=
  docSigs.any (fun ds => querySigs.any (fun qs => sigPairMatch ds qs))

/-- The mutable state of a `SignatureBasedBooleanModel`. -/
structure SigModel where
  documents : List Document
  signatures : List (List (List ℕ))
deriving DecidableEq

/-- `SignatureBasedBooleanModel.document_to_representation`: besides
returning the per-window signatures it appends the document to
`self.documents` and the signatures to `self.signatures`; the new state is
returned explicitly. -/
def sig_document_to_representation (m : SigModel) (d : Document)
    (stopword_filtering stemming : Bool) : List (List ℕ) × SigModel :=
  let terms := selectedTerms d stopword_filtering stemming
  let docSignatures := (chunksOf 5 terms).map _create_signature
  (docSignatures, ⟨m.documents ++ [d], m.signatures ++ [docSignatures]⟩)

/-- The state evolution of `InformationRetrievalSystem.signature_search`:
representations are (re)built — via `document_to_representation`, which
appends — only when `self.signatures` is empty; `model.search` itself only
reads `documents`/`signatures`. -/
def ensure_signatures (m : SigModel) (collection : List Document)
    (stopword_filtering stemming : Bool) : SigModel :=
  if m.signatures = [] then
    collection.foldl
      (fun mm d => (sig_document_to_representation mm d
        stopword_filtering stemming).2) m
  else m

/-! ## VectorSpaceModel (models.py)

The vector computations use Python floats (`math.log`, numpy dot/norm);
they are embedded over the exact reals, so the definitions below are
`noncomputable` like `Real.log` itself. -/

/-- Python `str.split()` (no argument): split on runs of whitespace,
discarding empty pieces; `cur` holds the current word reversed. -/
def wordsAux (cur : Term) : Term → List Term
  | [] => if cur = [] then [] else [cur.reverse]
  | c :: rest =>
      if isPyWhitespace c then
        (if cur = [] then wordsAux [] rest
         else cur.reverse :: wordsAux [] rest)
      else wordsAux (c :: cur) rest

/-- Python `s.split()`. -/
def pyWords (t : Term) : List Term := wordsAux [] t

/-- Append the keys `ks` that are not yet present, in order (the insertion
order of a Python dict/defaultdict). -/
def addKeys (vocab : List Term) (ks : List Term) : List Term :=
  ks.foldl (fun v k => if k ∈ v then v else v ++ [k]) vocab

/-- `Counter(lowered terms).keys()`: the distinct terms in first-occurrence
order. -/
def counterKeys (terms : List Term) : List Term := addKeys [] terms

/-- The key order of `self.inverted_index` after `build_inverted_index`:
first-encounter order of the lower-cased terms across the documents. -/
def vsmVocab (docsTerms : List (List Term)) : List Term :=
  docsTerms.foldl (fun v dts => addKeys v (counterKeys (dts.map lowerTerm))) []

/-- `len(self.inverted_index[t])`: the number of documents whose lower-cased
term list contains `t` (one `(doc_id, freq)` posting per such document). -/
def vsmDf (docsTerms : List (List Term)) (t : Term) : ℕ :=
  (docsTerms.filter (fun dts => t ∈ dts.map lowerTerm)).length

/-- `VectorSpaceModel._create_document_vector`: over the vocabulary in
index order, `tf * log(num_documents / df)` for the terms present, else 0. -/
noncomputable def create_document_vector (docsTerms : List (List Term))
    (terms : List Term) : List ℝ :=
  (vsmVocab docsTerms).map (fun k =>
    let tf := (terms.map lowerTerm).count k
    if tf ≠ 0 then
      (tf : ℝ) * Real.log ((docsTerms.length : ℝ) / (vsmDf docsTerms k : ℝ))
    else 0)

/-- `VectorSpaceModel.query_to_representation`: the same computation with the
term frequencies of `query.lower().split()`. -/
noncomputable def vsm_query_to_representation (docsTerms : List (List Term))
    (q : Term) : List ℝ :=
  (vsmVocab docsTerms).map (fun k =>
    let tf := (pyWords (lowerTerm q)).count k
    if tf ≠ 0 then
      (tf : ℝ) * Real.log ((docsTerms.length : ℝ) / (vsmDf docsTerms k : ℝ))
    else 0)

/-- `np.dot` on equal-length vectors. -/
def dotR (a b : List ℝ) : ℝ := (List.zipWith (fun x y => x * y) a b).sum

/-- `np.linalg.norm`: the Euclidean norm. -/
noncomputable def normR (a : List ℝ) : ℝ := Real.sqrt (dotR a a)

/-- `VectorSpaceModel.match`: cosine similarity, 0.0 when either vector has
zero norm. -/
noncomputable def vsm_match (d q : List ℝ) : ℝ :=
  if normR d = 0 ∨ normR q = 0 then 0
  else dotR d q / (normR d * normR q)

/-! ### Lemmas about the inverted index build -/

lemma memIdx_nil (t : Term) (j : ℕ) : memIdx [] t j = false := rfl

lemma memIdx_cons (k : Term) (s : Finset ℕ) (rest : InvIndex) (t : Term)
    (j : ℕ) :
    memIdx ((k, s) :: rest) t j =
      if k = t then decide (j ∈ s) else memIdx rest t j := by
  by_cases h : k = t <;> simp [memIdx, idxLookup, h]

lemma memIdx_idxInsert (idx : InvIndex) (t : Term) (i : ℕ) (t' : Term) (j : ℕ) :
    memIdx (idxInsert idx t i) t' j = true ↔
      (t' = t ∧ j = i) ∨ memIdx idx t' j = true := by
  induction idx with
  | nil =>
      by_cases h : t = t'
      · subst h
        simp [idxInsert, memIdx_cons, memIdx_nil]
      · have h' : ¬ t' = t := fun hc => h hc.symm
        simp [idxInsert, memIdx_cons, memIdx_nil, h, h']
  | cons p rest ih =>
      obtain ⟨k, s⟩ := p
      by_cases hkt : k = t
      · subst hkt
        by_cases hkt' : k = t'
        · subst hkt'
          simp [idxInsert, memIdx_cons, Finset.mem_insert, or_comm]
        · have h' : ¬ t' = k := fun hc => hkt' hc.symm
          simp [idxInsert, memIdx_cons, hkt', h']
      · by_cases hkt' : k = t'
        · subst hkt'
          have h' : ¬ k = t := hkt
          simp [idxInsert, memIdx_cons, hkt]
        · simp [idxInsert, memIdx_cons, hkt, hkt', ih]

lemma memIdx_addDocTerms (ts : List Term) (idx : InvIndex) (i : ℕ)
    (t : Term) (j : ℕ) :
    memIdx (addDocTerms idx i ts) t j = true ↔
      (j = i ∧ t ∈ ts.map lowerTerm) ∨ memIdx idx t j = true := by
  induction ts generalizing idx with
  | nil => simp [addDocTerms]
  | cons u us ih =>
      have : addDocTerms idx i (u :: us) =
          addDocTerms (idxInsert idx (lowerTerm u) i) i us := rfl
      rw [this, ih, memIdx_idxInsert]
      simp only [List.map_cons, List.mem_cons]
      tauto

lemma memIdx_buildAux (docs : List Document) (k : ℕ) (idx : InvIndex)
    (allDocs : Finset ℕ) (t : Term) (j : ℕ) :
    memIdx (buildAux docs k idx allDocs).1 t j = true ↔
      memIdx idx t j = true ∨
      ∃ m d, docs.get? m = some d ∧ j = k + m ∧ t ∈ d.terms.map lowerTerm := by
  induction docs generalizing k idx allDocs with
  | nil => simp [buildAux]
  | cons d ds ih =>
      rw [show buildAux (d :: ds) k idx allDocs =
            buildAux ds (k + 1) (addDocTerms idx k d.terms) (insert k allDocs)
          from rfl, ih, memIdx_addDocTerms]
      constructor
      · rintro ((⟨hj, ht⟩ | hidx) | ⟨m, d', hget, hj, ht⟩)
        · exact Or.inr ⟨0, d, rfl, by omega, ht⟩
        · exact Or.inl hidx
        · exact Or.inr ⟨m + 1, d', hget, by omega, ht⟩
      · rintro (hidx | ⟨m, d', hget, hj, ht⟩)
        · exact Or.inl (Or.inr hidx)
        · cases m with
          | zero =>
              rw [show (d :: ds).get? 0 = some d from rfl] at hget
              cases hget
              exact Or.inl (Or.inl ⟨by omega, ht⟩)
          | succ m =>
              exact Or.inr ⟨m, d', hget, by omega, ht⟩

/-! ## Claim theorems C1–C7 -/

lemma applyWhileBin_nilOps (allDocs : Finset ℕ) (fuel : ℕ)
    (res : List (Finset ℕ)) :
    applyWhileBin allDocs fuel ⟨res, []⟩ = .ok ⟨res, []⟩ := by
  cases fuel <;> rfl

lemma drainAll_nilOps (allDocs : Finset ℕ) (fuel : ℕ)
    (res : List (Finset ℕ)) :
    drainAll allDocs fuel ⟨res, []⟩ = .ok res := by
  cases fuel <;> rfl

lemma searchTokens_eq (idx : InvIndex) (allDocs : Finset ℕ) (fuel : ℕ)
    (tokens : List Term) (s : BState)
    (h : foldTokens idx allDocs fuel ⟨[], []⟩ tokens = .ok s) :
    searchTokens idx allDocs fuel tokens =
      match drainAll allDocs fuel s with
      | .ok [] => .ok none
      | .ok (top :: _) => .ok (some top)
      | .exc => .exc
      | .fuelOut => .fuelOut := by
  unfold searchTokens
  rw [h]

lemma drain_stuck (allDocs : Finset ℕ) (n : ℕ) :
    ∀ res : List (Finset ℕ), res.length < 2 →
      drainAll allDocs n ⟨res, [L "&"]⟩ = .fuelOut := by
  induction n with
  | zero => intro res _; rfl
  | succ n ih =>
      intro res hlen
      have hop : apply_operator allDocs ⟨res, [L "&"]⟩ = some ⟨res, [L "&"]⟩ := by
        simp +decide [apply_operator, hlen]
      simp only [drainAll, hop]
      exact ih res hlen

/-- C1: false of the code.  On a query in which a binary operator lacks its
operands (for example `"a &"` or a lone `"&"`), `apply_operator` returns
*without popping the operator stack*, so the trailing
`while operator_stack: apply_operator()` loop of
`InvertedListBooleanModel.search` spins forever: the search never
terminates, for every inverted index, universe set and amount of fuel. -/
theorem C1_malformed_query_never_terminates :
    ∀ (idx : InvIndex) (allDocs : Finset ℕ) (fuel : ℕ),
      inverted_search idx allDocs fuel (L "a &") = .fuelOut ∧
      inverted_search idx allDocs fuel (L "&") = .fuelOut := by
  intro idx allDocs fuel
  have htok1 : query_to_representation (lowerTerm (L "a &")) = [L "a", L "&"] := by
    decide
  have htok2 : query_to_representation (lowerTerm (L "&")) = [L "&"] := by
    decide
  constructor
  · have hfold : foldTokens idx allDocs fuel ⟨[], []⟩ [L "a", L "&"] =
        .ok ⟨[lookupSet idx (L "a")], [L "&"]⟩ := by
      simp +decide [foldTokens, processToken, applyWhileBin_nilOps]
    rw [show inverted_search idx allDocs fuel (L "a &") =
          searchTokens idx allDocs fuel
            (query_to_representation (lowerTerm (L "a &"))) from rfl,
      htok1, searchTokens_eq idx allDocs fuel _ _ hfold,
      drain_stuck allDocs fuel [lookupSet idx (L "a")] (by simp)]
  · have hfold : foldTokens idx allDocs fuel ⟨[], []⟩ [L "&"] =
        .ok ⟨[], [L "&"]⟩ := by
      simp +decide [foldTokens, processToken, applyWhileBin_nilOps]
    rw [show inverted_search idx allDocs fuel (L "&") =
          searchTokens idx allDocs fuel
            (query_to_representation (lowerTerm (L "&"))) from rfl,
      htok2, searchTokens_eq idx allDocs fuel _ _ hfold,
      drain_stuck allDocs fuel [] (by simp)]

/-- C2 counterexample: a document whose stemmed term list contains `run`
(its raw list has only `running`), searched with `stemming = true`:
`run` is in the selected term list, yet its id is not in
`inverted_index["run"]`, because `build_inverted_list` reads the raw
`document.terms` and ignores the filtering/stemming flags. -/
theorem C2_counterexample :
    (L "run") ∈ (selectedTerms ⟨[L "running"], [L "running"], [L "run"]⟩
        false true).map lowerTerm ∧
    memIdx (build_inverted_list [⟨[L "running"], [L "running"], [L "run"]⟩]).1
        (L "run") 0 = false := by decide

/-- C2 amended: after `build_inverted_list`, a document id `j` is in
`inverted_index[T]` iff `T` is the case-folding of some entry of document
`j`'s *raw* term list `document.terms` — the stopword-filtering/stemming
flags play no role in this model. -/
theorem C2_inverted_index_characterisation :
    ∀ (docs : List Document) (t : Term) (j : ℕ),
      memIdx (build_inverted_list docs).1 t j = true ↔
        ∃ d, docs.get? j = some d ∧ t ∈ d.terms.map lowerTerm := by
  intro docs t j
  rw [build_inverted_list, memIdx_buildAux]
  constructor
  · rintro (h | ⟨m, d, hget, hj, ht⟩)
    · simp [memIdx, idxLookup] at h
    · exact ⟨d, by simpa [hj] using hget, ht⟩
  · rintro ⟨d, hget, ht⟩
    exact Or.inr ⟨j, d, hget, by omega, ht⟩

/-- C3 counterexample: with `a ↦ {0}`, `b ↦ ∅`, `c ↦ {0}`, grouping-first
evaluation of `( a | b ) & c` gives `({0} ∪ ∅) ∩ {0} = {0}`, but the code
returns `∅`: parentheses reach the term branch of
`InvertedListBooleanModel.search` and are looked up as index keys. -/
theorem C3_counterexample :
    inverted_search [(L "a", {0}), (L "b", ∅), (L "c", {0})] {0} 10
        (L "( a | b ) & c") = .ok (some ∅) ∧
    (({0} : Finset ℕ) ∪ ∅) ∩ {0} = {0} ∧ (∅ : Finset ℕ) ≠ {0} := by decide

/-- C3 amended: `InvertedListBooleanModel.search` has no parenthesis
handling at all: `(` and `)` fall into the term branch and push
`inverted_index.get(token, set())`.  On `( a | b ) & c` the evaluation
therefore returns `(B ∪ lookup ")") ∩ C` — with `A` never used and the
set pushed for `(` left discarded on the stack — instead of
`(A ∪ B) ∩ C`. -/
theorem C3_parens_are_terms :
    ∀ (idx : InvIndex) (allDocs : Finset ℕ) (n : ℕ),
      inverted_search idx allDocs (n + 1) (L "( a | b ) & c") =
        .ok (some ((lookupSet idx (L "b") ∪ lookupSet idx (L ")")) ∩
          lookupSet idx (L "c"))) := by
  intro idx allDocs n
  have htok : query_to_representation (lowerTerm (L "( a | b ) & c")) =
      [L "(", L "a", L "|", L "b", L ")", L "&", L "c"] := by decide
  have hfold : foldTokens idx allDocs (n + 1) ⟨[], []⟩
      [L "(", L "a", L "|", L "b", L ")", L "&", L "c"] =
      .ok ⟨[lookupSet idx (L "c"),
            lookupSet idx (L "b") ∪ lookupSet idx (L ")"),
            lookupSet idx (L "a"), lookupSet idx (L "(")], [L "&"]⟩ := by
    simp +decide [foldTokens, processToken, applyWhileBin, applyWhileBin_nilOps, apply_operator]
  have hdrain : drainAll allDocs (n + 1)
      ⟨[lookupSet idx (L "c"),
        lookupSet idx (L "b") ∪ lookupSet idx (L ")"),
        lookupSet idx (L "a"), lookupSet idx (L "(")], [L "&"]⟩ =
      .ok [(lookupSet idx (L "b") ∪ lookupSet idx (L ")")) ∩
             lookupSet idx (L "c"),
           lookupSet idx (L "a"), lookupSet idx (L "(")] := by
    simp +decide [drainAll, drainAll_nilOps, apply_operator]
  rw [show inverted_search idx allDocs (n + 1) (L "( a | b ) & c") =
        searchTokens idx allDocs (n + 1)
          (query_to_representation (lowerTerm (L "( a | b ) & c"))) from rfl,
    htok, searchTokens_eq idx allDocs (n + 1) _ _ hfold, hdrain]

/-- C4: false of the code (`code_bug`).  The regex of `get_measure` is
anchored at `^`, so `re.findall` yields at most one match and the function
is capped at 1: it is *not* the number of vowel-run→consonant-run
transitions (`measureSpec`, here 2 for `tartar`), and the `> 1`
preconditions of steps 4, 5a and 5b can never hold. -/
theorem C4_measure_capped_at_one :
    get_measure (L "tartar") = 1 ∧ measureSpec (L "tartar") = 2 ∧
    ∀ t : Term, get_measure t ≤ 1 := by
  refine ⟨by decide, by decide, ?_⟩
  intro t
  unfold get_measure
  split <;> omega

/-- C5: three of the four literal stems hold, but
`stem_term("relational") = "relat"`, not `"relate"`: `cond_o` tests the
four-character pattern `[^aeiou][aeiouy][^aeiou][^wxy]$` (its docstring
says "ends cvc"), so `cond_o("relat")` is false and step 5a strips the
final `e` from `relate`. -/
theorem C5_literal_stems :
    stem_term (L "caresses") = L "caress" ∧
    stem_term (L "ponies") = L "poni" ∧
    stem_term (L "hopping") = L "hop" ∧
    stem_term (L "relational") = L "relat" := by decide

/-- C6 counterexample: `stem_term("agreed")` is `"agre"`, not `"agree"`
(step 5a strips the final `e`), and `"agree"` is not a fixed point either. -/
theorem C6_counterexample :
    stem_term (L "agreed") ≠ L "agree" ∧ stem_term (L "agree") ≠ L "agree" := by
  decide

/-- C6 amended: `stem_term("agreed") = "agre"`; `"agre"` is still not a
fixed point (`stem_term("agre") = "agr"`), and `"agr"` is the fixed point
actually reached. -/
theorem C6_agreed_stem_chain :
    stem_term (L "agreed") = L "agre" ∧
    stem_term (L "agre") = L "agr" ∧
    stem_term (L "agr") = L "agr" := by decide

/-- C7 counterexample: `remove_stop_words_from_term_list` rewrites each
surviving term with `remove_symbols`: from the list `["it's"]` (no stop
words) it keeps `"it"`, which is not a member of the original list. -/
theorem C7_counterexample :
    remove_stop_words_from_term_list [['i', 't', apos, 's']] [] = [L "it"] ∧
    (L "it") ∈ remove_stop_words_from_term_list [['i', 't', apos, 's']] [] ∧
    (L "it") ∉ [['i', 't', apos, 's']] := by decide

lemma remove_stop_words_eq_filter (terms stopWords : List Term) :
    remove_stop_words_from_term_list terms stopWords =
      (terms.map remove_symbols).filter
        (fun t => ¬ is_stop_word t stopWords) := by
  induction terms with
  | nil => rfl
  | cons u us ih =>
      by_cases h : is_stop_word (remove_symbols u) stopWords <;>
        simp [remove_stop_words_from_term_list, h, ih]

/-- C7 amended: filtering maps every term through `remove_symbols` and then
removes the stop words: the result is exactly the stop-word-free
sublist of `terms.map remove_symbols` (so relative order is preserved and
nothing new beyond symbol-stripping is introduced), and every surviving
entry is the symbol-stripped form of some original term. -/
theorem C7_filtering_only_removes_symbol_stripped_terms :
    ∀ (terms stopWords : List Term),
      remove_stop_words_from_term_list terms stopWords =
        (terms.map remove_symbols).filter
          (fun t => ¬ is_stop_word t stopWords) ∧
      (remove_stop_words_from_term_list terms stopWords).Sublist
        (terms.map remove_symbols) ∧
      ∀ t ∈ remove_stop_words_from_term_list terms stopWords,
        ∃ t0 ∈ terms, remove_symbols t0 = t := by
  intro terms stopWords
  refine ⟨remove_stop_words_eq_filter terms stopWords, ?_, ?_⟩
  · rw [remove_stop_words_eq_filter]
    exact List.filter_sublist _
  · intro t ht
    rw [remove_stop_words_eq_filter] at ht
    have := (List.filter_sublist _).subset ht
    obtain ⟨t0, ht0, rfl⟩ := List.mem_map.mp this
    exact ⟨t0, ht0, rfl⟩

/-- Witness for C7: instantiating the theorem on the concrete list
`["it's"]` with no stop words. -/
theorem C7_filtering_witness :
    ∃ t0 ∈ [['i', 't', apos, 's']], remove_symbols t0 = L "it" :=
  (C7_filtering_only_removes_symbol_stripped_terms
    [['i', 't', apos, 's']] []).2.2 (L "it") (by decide)

/-! ### Lemmas about signatures -/

lemma hash_function_lt (t : Term) (i : ℕ) : hash_function sigF t i < 64 :=
  Nat.mod_lt _ (by norm_num [sigF])

lemma getD_set_ne1 (l : List ℕ) (i p : ℕ) (h : i ≠ p) :
    (l.set i 1).getD p 0 = l.getD p 0 := by
  simp [List.getD, List.getElem?_set_ne h]

lemma getD_set_self1 (l : List ℕ) (i : ℕ) (h : i < l.length) :
    (l.set i 1).getD i 0 = 1 := by
  simp [List.getD, List.getElem?_set_self, h]

lemma foldl_set_length (seeds : List ℕ) (f : ℕ → ℕ) (sig : List ℕ) :
    (seeds.foldl (fun s i => s.set (f i) 1) sig).length = sig.length := by
  induction seeds generalizing sig with
  | nil => rfl
  | cons a as ih => simp [List.foldl_cons, ih, List.length_set]

lemma addTermBits_length (sig : List ℕ) (t : Term) :
    (addTermBits sig t).length = sig.length := foldl_set_length _ _ _

lemma foldl_set_getD (seeds : List ℕ) (f : ℕ → ℕ) (sig : List ℕ) (p : ℕ)
    (hf : ∀ i ∈ seeds, f i < sig.length) :
    (seeds.foldl (fun s i => s.set (f i) 1) sig).getD p 0 =
      if ∃ i ∈ seeds, f i = p then 1 else sig.getD p 0 := by
  induction seeds generalizing sig with
  | nil => simp
  | cons a as ih =>
      have hlen : (sig.set (f a) 1).length = sig.length := List.length_set _ _ _
      rw [List.foldl_cons,
        ih _ (fun i hi => by rw [hlen]; exact hf i (List.mem_cons_of_mem _ hi))]
      by_cases hmem : ∃ i ∈ as, f i = p
      · obtain ⟨i, hi, hip⟩ := hmem
        simp only [if_pos (⟨i, hi, hip⟩ : ∃ i ∈ as, f i = p)]
        rw [if_pos ⟨i, List.mem_cons_of_mem _ hi, hip⟩]
      · by_cases hap : f a = p
        · rw [if_neg hmem, if_pos ⟨a, List.mem_cons_self _ _, hap⟩, ← hap,
            getD_set_self1 _ _ (hf a (List.mem_cons_self _ _))]
        · rw [if_neg hmem, getD_set_ne1 _ _ _ hap, if_neg]
          rintro ⟨i, hi, hip⟩
          rcases List.mem_cons.mp hi with rfl | hi'
          · exact hap hip
          · exact hmem ⟨i, hi', hip⟩

lemma addTermBits_getD (sig : List ℕ) (t : Term) (p : ℕ)
    (hlen : sig.length = 64) :
    (addTermBits sig t).getD p 0 =
      if ∃ i < sigD, hash_function sigF (lowerTerm t) i = p then 1
      else sig.getD p 0 := by
  rw [show addTermBits sig t =
        (List.range sigD).foldl
          (fun s i => s.set (hash_function sigF (lowerTerm t) i) 1) sig
      from rfl,
    foldl_set_getD _ _ _ _ (fun i _ => by rw [hlen]; exact hash_function_lt _ _)]
  simp [List.mem_range]

lemma foldl_addTermBits_length (terms : List Term) (sig : List ℕ) :
    (terms.foldl addTermBits sig).length = sig.length := by
  induction terms generalizing sig with
  | nil => rfl
  | cons t ts ih => rw [List.foldl_cons, ih, addTermBits_length]

lemma create_signature_length (terms : List Term) :
    (_create_signature terms).length = 64 := by
  rw [_create_signature, foldl_addTermBits_length]
  simp [sigF]

lemma foldl_addTermBits_getD (terms : List Term) (sig : List ℕ) (p : ℕ)
    (hlen : sig.length = 64) :
    (terms.foldl addTermBits sig).getD p 0 =
      if ∃ t ∈ terms, ∃ i < sigD, hash_function sigF (lowerTerm t) i = p
      then 1 else sig.getD p 0 := by
  induction terms generalizing sig with
  | nil => simp
  | cons t ts ih =>
      rw [List.foldl_cons, ih _ (by rw [addTermBits_length, hlen]),
        addTermBits_getD _ _ _ hlen]
      by_cases h1 : ∃ t' ∈ ts, ∃ i < sigD, hash_function sigF (lowerTerm t') i = p
      · obtain ⟨t', ht', hi⟩ := h1
        rw [if_pos ⟨t', ht', hi⟩, if_pos ⟨t', List.mem_cons_of_mem _ ht', hi⟩]
      · rw [if_neg h1]
        by_cases h2 : ∃ i < sigD, hash_function sigF (lowerTerm t) i = p
        · rw [if_pos h2, if_pos ⟨t, List.mem_cons_self _ _, h2⟩]
        · rw [if_neg h2, if_neg]
          rintro ⟨t', ht', hi⟩
          rcases List.mem_cons.mp ht' with rfl | ht''
          · exact h2 hi
          · exact h1 ⟨t', ht'', hi⟩

lemma getD_replicate_zero (p : ℕ) : (List.replicate 64 (0 : ℕ)).getD p 0 = 0 := by
  by_cases h : p < 64
  · rw [List.getD_eq_getElem _ _ (by simpa using h), List.getElem_replicate]
  · rw [List.getD_eq_default]
    simpa using h

lemma create_signature_getD (terms : List Term) (p : ℕ) :
    (_create_signature terms).getD p 0 =
      if ∃ t ∈ terms, ∃ i < sigD, hash_function sigF (lowerTerm t) i = p
      then 1 else 0 := by
  rw [_create_signature, foldl_addTermBits_getD _ _ _ (by simp [sigF])]
  rw [show (List.replicate sigF (0 : ℕ)) = List.replicate 64 0 from rfl,
    getD_replicate_zero]

lemma create_signature_eq_of_set_eq (dw qw : List Term)
    (hset : ∀ u, u ∈ dw.map lowerTerm ↔ u ∈ qw.map lowerTerm) :
    _create_signature dw = _create_signature qw := by
  have hcond : ∀ p,
      (∃ t ∈ dw, ∃ i < sigD, hash_function sigF (lowerTerm t) i = p) ↔
      (∃ t ∈ qw, ∃ i < sigD, hash_function sigF (lowerTerm t) i = p) := by
    intro p
    constructor
    · rintro ⟨t, ht, hi⟩
      obtain ⟨t', ht', heq⟩ :=
        List.mem_map.mp ((hset _).mp (List.mem_map_of_mem _ ht))
      exact ⟨t', ht', heq ▸ hi⟩
    · rintro ⟨t, ht, hi⟩
      obtain ⟨t', ht', heq⟩ :=
        List.mem_map.mp ((hset _).mpr (List.mem_map_of_mem _ ht))
      exact ⟨t', ht', heq ▸ hi⟩
  apply List.ext_getElem
    (by rw [create_signature_length, create_signature_length])
  intro n h1 h2
  have e1 := create_signature_getD dw n
  have e2 := create_signature_getD qw n
  rw [List.getD_eq_getElem _ _ h1] at e1
  rw [List.getD_eq_getElem _ _ h2] at e2
  rw [e1, e2, if_congr (hcond n) rfl rfl]

lemma foldl_set_zero_one (seeds : List ℕ) (f : ℕ → ℕ) (sig : List ℕ)
    (h : ∀ x ∈ sig, x = 0 ∨ x = 1) :
    ∀ x ∈ seeds.foldl (fun s i => s.set (f i) 1) sig, x = 0 ∨ x = 1 := by
  induction seeds generalizing sig with
  | nil => exact h
  | cons a as ih =>
      intro x hx
      refine ih _ (fun y hy => ?_) x hx
      rcases List.mem_or_eq_of_mem_set hy with hy' | rfl
      · exact h y hy'
      · exact Or.inr rfl

lemma create_signature_zero_one (terms : List Term) :
    ∀ x ∈ _create_signature terms, x = 0 ∨ x = 1 := by
  rw [_create_signature]
  generalize hsig : List.replicate sigF (0 : ℕ) = sig
  have hbase : ∀ x ∈ sig, x = 0 ∨ x = 1 := by
    intro x hx
    rw [← hsig] at hx
    exact Or.inl (List.eq_of_mem_replicate hx)
  clear hsig
  induction terms generalizing sig with
  | nil => exact hbase
  | cons t ts ih =>
      exact ih _ (foldl_set_zero_one _ _ _ hbase)

lemma sum_eq_count_ones (l : List ℕ) (h : ∀ x ∈ l, x = 0 ∨ x = 1) :
    l.sum = (l.filter (fun b => b ≠ 0)).length := by
  induction l with
  | nil => rfl
  | cons x xs ih =>
      have hxs := ih (fun y hy => h y (List.mem_cons_of_mem _ hy))
      rcases h x (List.mem_cons_self _ _) with rfl | rfl
      · simpa using hxs
      · simp only [List.sum_cons, List.filter_cons]
        norm_num at hxs ⊢
        omega

lemma matchingBits_self (S : List ℕ) (h : ∀ x ∈ S, x = 0 ∨ x = 1) :
    matchingBits S S = queryActiveBits S := by
  rw [matchingBits, queryActiveBits, List.zipWith_same]
  rw [show S.map (fun x => x &&& x) = S.map id from
      List.map_congr_left (fun a _ => Nat.and_self a), List.map_id]
  exact (sum_eq_count_ones S h).symm

lemma create_signature_active_pos (dw : List Term) (h : dw ≠ []) :
    0 < queryActiveBits (_create_signature dw) := by
  obtain ⟨t, ts, rfl⟩ := List.exists_cons_of_ne_nil h
  set p := hash_function sigF (lowerTerm t) 0 with hp
  have hplt : p < (_create_signature (t :: ts)).length := by
    rw [create_signature_length]
    exact hash_function_lt _ _
  have h1 : (_create_signature (t :: ts)).getD p 0 = 1 := by
    rw [create_signature_getD, if_pos]
    exact ⟨t, List.mem_cons_self _ _, 0, by norm_num [sigD], rfl⟩
  rw [List.getD_eq_getElem _ _ hplt] at h1
  have hmem : (1 : ℕ) ∈ _create_signature (t :: ts) :=
    h1 ▸ List.getElem_mem hplt
  have := List.single_le_sum
    (fun (x : ℕ) (_ : x ∈ _create_signature (t :: ts)) => Nat.zero_le x) 1 hmem
  rw [queryActiveBits]
  omega

/-! ## Claim theorems C9 and C10 -/

set_option maxRecDepth 1000000 in
/-- C9 counterexample: the document window `["ah", "bj"]` shares no term
with the query window `["cat"]`, yet 3 of the 4 active query bits match, so
the ratio is 3/4 — not 0 — and it meets the 0.75 threshold: the pair makes
the document match (a classic signature false positive). -/
theorem C9_counterexample :
    (∀ t ∈ ([L "ah", L "bj"].map lowerTerm),
        t ∉ ([L "cat"].map lowerTerm)) ∧
    matchingBits (_create_signature [L "ah", L "bj"])
        (_create_signature [L "cat"]) = 3 ∧
    queryActiveBits (_create_signature [L "cat"]) = 4 ∧
    ((matchingBits (_create_signature [L "ah", L "bj"])
        (_create_signature [L "cat"]) : ℚ) /
      (queryActiveBits (_create_signature [L "cat"]) : ℚ) ≠ 0) ∧
    sigPairMatch (_create_signature [L "ah", L "bj"])
        (_create_signature [L "cat"]) = true ∧
    sig_match [_create_signature [L "ah", L "bj"]]
        [_create_signature [L "cat"]] = true := by
  have hm : matchingBits (_create_signature [L "ah", L "bj"])
      (_create_signature [L "cat"]) = 3 := by decide
  have ha : queryActiveBits (_create_signature [L "cat"]) = 4 := by decide
  have hp : sigPairMatch (_create_signature [L "ah", L "bj"])
      (_create_signature [L "cat"]) = true := by
    rw [sigPairMatch, hm, ha]
    norm_num
  refine ⟨by decide, hm, ha, ?_, hp, ?_⟩
  · rw [hm, ha]
    norm_num
  · rw [sig_match]
    simp [hp]

/-- C9 amended: the first half of the claim holds — a document window whose
(lower-cased) term set is exactly the query window's yields an identical
signature, matching-bits/active-bits ratio exactly 1 (≥ any threshold, in
particular 0.75), and makes the document match — but the second half is
false: windows sharing no terms can still reach the threshold (see the
counterexample), so "ratio 0, no match" is not guaranteed. -/
theorem C9_equal_window_always_matches :
    ∀ (dw qw : List Term),
      dw ≠ [] →
      (dw.map lowerTerm).toFinset = (qw.map lowerTerm).toFinset →
      _create_signature dw = _create_signature qw ∧
      (matchingBits (_create_signature dw) (_create_signature qw) : ℚ) /
        (queryActiveBits (_create_signature qw) : ℚ) = 1 ∧
      sigPairMatch (_create_signature dw) (_create_signature qw) = true ∧
      ∀ docSigs querySigs,
        _create_signature dw ∈ docSigs → _create_signature qw ∈ querySigs →
          sig_match docSigs querySigs = true := by
  intro dw qw hne hset
  have hmem : ∀ u, u ∈ dw.map lowerTerm ↔ u ∈ qw.map lowerTerm := by
    intro u
    rw [← List.mem_toFinset, ← List.mem_toFinset, hset]
  have hsig := create_signature_eq_of_set_eq dw qw hmem
  have h01 := create_signature_zero_one qw
  have hpos : 0 < queryActiveBits (_create_signature qw) := by
    rw [← hsig]
    exact create_signature_active_pos dw hne
  have hm : matchingBits (_create_signature dw) (_create_signature qw) =
      queryActiveBits (_create_signature qw) := by
    rw [hsig]
    exact matchingBits_self _ h01
  have hane : (queryActiveBits (_create_signature qw) : ℚ) ≠ 0 := by
    exact_mod_cast hpos.ne'
  have hratio : (matchingBits (_create_signature dw)
        (_create_signature qw) : ℚ) /
      (queryActiveBits (_create_signature qw) : ℚ) = 1 := by
    rw [hm]
    exact div_self hane
  have hpair : sigPairMatch (_create_signature dw) (_create_signature qw) =
      true := by
    rw [sigPairMatch]
    simp only [decide_eq_true_eq]
    exact ⟨hpos, by rw [hratio]; norm_num⟩
  refine ⟨hsig, hratio, hpair, ?_⟩
  intro docSigs querySigs hd hq
  rw [sig_match, List.any_eq_true]
  exact ⟨_, hd, by rw [List.any_eq_true]; exact ⟨_, hq, hpair⟩⟩

set_option maxRecDepth 1000000 in
/-- Witness for C9: both windows equal to `["cat"]`. -/
theorem C9_equal_window_witness :
    sigPairMatch (_create_signature [L "cat"]) (_create_signature [L "cat"]) =
      true ∧
    sig_match [_create_signature [L "cat"]] [_create_signature [L "cat"]] =
      true :=
  ⟨(C9_equal_window_always_matches [L "cat"] [L "cat"] (by decide) rfl).2.2.1,
   (C9_equal_window_always_matches [L "cat"] [L "cat"] (by decide)
      rfl).2.2.2 _ _ (by simp) (by simp)⟩

/-- C10: `document_to_representation` appends the document and its window
signatures to the model state; calling it twice on the same document leaves
duplicate entries; and since `signature_search` rebuilds only when
`self.signatures` is empty, a second search — with possibly different
stopword/stemming flags — leaves the state exactly as the first search
built it. -/
theorem C10_document_to_representation_mutates :
    ∀ (m : SigModel) (d : Document) (sw st : Bool)
      (collection : List Document) (sw2 st2 : Bool),
      (sig_document_to_representation m d sw st).2.documents =
          m.documents ++ [d] ∧
      (sig_document_to_representation m d sw st).2.signatures =
          m.signatures ++
            [(chunksOf 5 (selectedTerms d sw st)).map _create_signature] ∧
      (sig_document_to_representation
          (sig_document_to_representation m d sw st).2 d sw st).2.documents =
        m.documents ++ [d, d] ∧
      ((ensure_signatures m collection sw st).signatures ≠ [] →
        ensure_signatures (ensure_signatures m collection sw st)
            collection sw2 st2 =
          ensure_signatures m collection sw st) := by
  intro m d sw st collection sw2 st2
  refine ⟨rfl, rfl, by simp [sig_document_to_representation], ?_⟩
  intro hne
  rw [ensure_signatures, if_neg hne]

/-- Witness for C10: an initially empty model over a one-document
collection; the first search populates `signatures`, the second (with
different flags) leaves the state unchanged. -/
theorem C10_mutation_witness :
    (ensure_signatures ⟨[], []⟩ [⟨[], [], []⟩] false false).signatures ≠
        ([] : List (List (List ℕ))) ∧
    ensure_signatures
        (ensure_signatures ⟨[], []⟩ [⟨[], [], []⟩] false false)
        [⟨[], [], []⟩] true true =
      ensure_signatures ⟨[], []⟩ [⟨[], [], []⟩] false false :=
  ⟨by decide,
   (C10_document_to_representation_mutates ⟨[], []⟩ ⟨[], [], []⟩ false false
      [⟨[], [], []⟩] true true).2.2.2 (by decide)⟩


lemma dotR_self_nonneg (v : List ℝ) : 0 ≤ dotR v v := by
  rw [dotR, List.zipWith_same]
  exact List.sum_nonneg (by
    intro x hx
    obtain ⟨a, _, rfl⟩ := List.mem_map.mp hx
    exact mul_self_nonneg a)

/-- C8 counterexample: a one-document collection whose document's term list
is `["a"]`: every idf is `log(1/1) = 0`, the document vector is the zero
vector, and `match` returns exactly 0 for the query `"a"` (identical term
list) — not 1. -/
theorem C8_counterexample :
    vsm_match (create_document_vector [[L "a"]] [L "a"])
        (vsm_query_to_representation [[L "a"]] (L "a")) = 0 ∧
    (0 : ℝ) ≠ 1 := by
  have hv : create_document_vector [[L "a"]] [L "a"] = [0] := by
    rw [create_document_vector]
    rw [show vsmVocab [[L "a"]] = [L "a"] from by decide]
    simp only [List.map_cons, List.map_nil]
    norm_num [show (List.map lowerTerm [L "a"]).count (L "a") = 1 from by decide,
      show vsmDf [[L "a"]] (L "a") = 1 from by decide]
  refine ⟨?_, by norm_num⟩
  rw [hv, vsm_match, if_pos]
  left
  rw [normR]
  rw [show dotR [(0 : ℝ)] [0] = 0 from by rw [dotR]; norm_num]
  exact Real.sqrt_zero

/-- C8 amended: if the query's (lower-cased, whitespace-split) term list
equals the document's lower-cased term list and the shared tf–idf vector is
not the zero vector, then the cosine similarity of the document vector with
the query vector is exactly 1; when the vector is zero (e.g. every document
term occurs in all documents, so all idf weights vanish), `match` returns 0
instead. -/
theorem C8_self_query_cosine_one :
    ∀ (docsTerms : List (List Term)) (terms : List Term) (q : Term),
      pyWords (lowerTerm q) = terms.map lowerTerm →
      normR (create_document_vector docsTerms terms) ≠ 0 →
      vsm_match (create_document_vector docsTerms terms)
        (vsm_query_to_representation docsTerms q) = 1 := by
  intro docsTerms terms q hq hnz
  have hvec : vsm_query_to_representation docsTerms q =
      create_document_vector docsTerms terms := by
    simp only [vsm_query_to_representation, create_document_vector, hq]
  rw [hvec]
  set v := create_document_vector docsTerms terms with hv
  have hdnz : dotR v v ≠ 0 := by
    intro h0
    exact hnz (by rw [normR, h0, Real.sqrt_zero])
  rw [vsm_match, if_neg (by push_neg; exact ⟨hnz, hnz⟩), normR,
    Real.mul_self_sqrt (dotR_self_nonneg v)]
  exact div_self hdnz

/-- Witness for C8: the collection `[["a"], ["b"]]` and its first document;
the document vector is `[log 2, 0] ≠ 0` and the self-query yields cosine 1. -/
theorem C8_self_query_witness :
    vsm_match (create_document_vector [[L "a"], [L "b"]] [L "a"])
      (vsm_query_to_representation [[L "a"], [L "b"]] (L "a")) = 1 := by
  have hv : create_document_vector [[L "a"], [L "b"]] [L "a"] =
      [Real.log 2, 0] := by
    rw [create_document_vector]
    rw [show vsmVocab [[L "a"], [L "b"]] = [L "a", L "b"] from by decide]
    simp only [List.map_cons, List.map_nil]
    norm_num [show List.count (L "a") [lowerTerm (L "a")] = 1 from by decide,
      show List.count (L "b") [lowerTerm (L "a")] = 0 from by decide,
      show vsmDf [[L "a"], [L "b"]] (L "a") = 1 from by decide]
  refine C8_self_query_cosine_one [[L "a"], [L "b"]] [L "a"] (L "a")
    (by decide) ?_
  rw [hv, normR]
  have hd : dotR [Real.log 2, 0] [Real.log 2, 0] = Real.log 2 * Real.log 2 := by
    rw [dotR]
    norm_num
  rw [hd]
  have hlog : (0 : ℝ) < Real.log 2 := Real.log_pos (by norm_num)
  have : (0 : ℝ) < Real.log 2 * Real.log 2 := mul_pos hlog hlog
  exact (Real.sqrt_pos.mpr this).ne'
